import Mathlib

/-
  Verification development for the variant-nnue training pipeline.

  Shallow embedding of the trainer-graph sharing logic
  (src/nnue/trainer/trainer_input_slice.h), the Sum layer
  (src/nnue/layers/sum.h), the feature-set composer
  (nnue/features/feature_set.h), the CastlingRight feature
  (src/nnue/features/castling_right.cpp), the self-play generator
  (gensfen.cpp: commit_psv, get_current_game_result, thread_worker),
  the newbob learning-rate scheduler (src/learn/learn.cpp:
  LearnerThink::save / thread_worker), and the Fisher-Yates shuffle
  (misc.h: Algo::shuffle).

  C++ machine floats (LearnFloatType, double) are modelled as rationals:
  the verified claims are control-flow and accounting properties that do
  not depend on rounding.  C++ ints are modelled as Int, unsigned
  counters as Nat.
-/

namespace VariantNNUE

/-! ## Feature set composer (nnue/features/feature_set.h)

A feature extractor is characterised, for the dimension claims, by its
`kDimensions` and `kMaxActiveDimensions` constants.  `FeatureSet` is a
non-empty type-level list of extractors; it is modelled as a head
extractor plus a (possibly empty) tail list. -/

structure FeatureExtractorInfo where
  kDimensions : Nat
  kMaxActiveDimensions : Nat
deriving DecidableEq, Repr

/-- `FeatureSet<First, Remaining...>::kDimensions`:
`Head::kDimensions + Tail::kDimensions`, with the single-element
specialisation `FeatureSet<F>::kDimensions = F::kDimensions`. -/
def featureSetDimensions (head : FeatureExtractorInfo) :
    List FeatureExtractorInfo → Nat
  | [] => head.kDimensions
  | g :: rest => head.kDimensions + featureSetDimensions g rest

/-- `FeatureSet<First, Remaining...>::kMaxActiveDimensions`:
`Head::kMaxActiveDimensions + Tail::kMaxActiveDimensions`, with the
single-element specialisation returning the member's constant. -/
def featureSetMaxActiveDimensions (head : FeatureExtractorInfo) :
    List FeatureExtractorInfo → Nat
  | [] => head.kMaxActiveDimensions
  | g :: rest => head.kMaxActiveDimensions + featureSetMaxActiveDimensions g rest

/-- C5: for every composed feature set (non-empty list of extractors),
the combined `kDimensions` is the sum of the members' `kDimensions`, and
the combined `kMaxActiveDimensions` is the sum of the members'
`kMaxActiveDimensions`. -/
theorem featureSet_dimension_additivity
    (head : FeatureExtractorInfo) (tail : List FeatureExtractorInfo) :
    featureSetDimensions head tail
      = ((head :: tail).map FeatureExtractorInfo.kDimensions).sum
    ∧ featureSetMaxActiveDimensions head tail
      = ((head :: tail).map FeatureExtractorInfo.kMaxActiveDimensions).sum := by
  induction tail generalizing head with
  | nil => simp [featureSetDimensions, featureSetMaxActiveDimensions]
  | cons g rest ih =>
    have h := ih g
    constructor
    · simp [featureSetDimensions, h.1, List.map_cons, List.sum_cons, Nat.add_assoc]
    · simp [featureSetMaxActiveDimensions, h.2, List.map_cons, List.sum_cons,
        Nat.add_assoc]

/-! ## Colors, pieces, triggers (features_common.h / types.h) -/

inductive Color where
  | white
  | black
deriving DecidableEq, Repr

/-- `~perspective`: the other color. -/
def Color.other : Color → Color
  | .white => .black
  | .black => .white

/-- A piece, as far as the feature-set delta logic needs it: its color
and whether it is a king (`type_of(pc) == KING`). -/
structure Piece where
  color : Color
  isKing : Bool
deriving DecidableEq, Repr

/-- `make_piece(c, KING)`. -/
def makeKing (c : Color) : Piece := ⟨c, true⟩

/-! ## CastlingRight feature (src/nnue/features/castling_right.cpp) -/

/-- `CastlingRight::kDimensions = 4`. -/
def castlingRightDimensions : Nat := 4

/-- The black-perspective inversion expression from
`castling_right.cpp`: `((castling_rights & 3) << 2) & ((castling_rights
>> 2) & 3)`. -/
def blackRelativeCastlingRights (cr : Nat) : Nat :=
  ((cr &&& 3) <<< 2) &&& ((cr >>> 2) &&& 3)

/-- `CastlingRight::append_active_indices`.  `rawMaxActive` stands for
`RawFeatures::kMaxActiveDimensions` (the early-return guard). -/
def castlingRightAppendActive (rawMaxActive : Nat) (cr : Nat)
    (perspective : Color) (active : List Nat) : List Nat :=
  if rawMaxActive < castlingRightDimensions then active
  else
    let rel := match perspective with
      | .white => cr
      | .black => blackRelativeCastlingRights cr
    active ++ (List.range castlingRightDimensions).filter
      (fun i => rel &&& (1 <<< i) != 0)

/-- `CastlingRight::append_changed_indices` (only `removed` is ever
pushed to; the `added` list is left untouched by the source). -/
def castlingRightAppendChanged (prevCr curCr : Nat)
    (perspective : Color) (removed : List Nat) : List Nat :=
  let relPrev := match perspective with
    | .white => prevCr
    | .black => blackRelativeCastlingRights prevCr
  let relCur := match perspective with
    | .white => curCr
    | .black => blackRelativeCastlingRights curCr
  removed ++ (List.range castlingRightDimensions).filter
    (fun i => (relPrev &&& (1 <<< i) != 0) && (relCur &&& (1 <<< i) == 0))

lemma blackRelativeCastlingRights_eq_zero (cr : Nat) :
    blackRelativeCastlingRights cr = 0 := by
  unfold blackRelativeCastlingRights
  apply Nat.eq_of_testBit_eq
  intro i
  rw [Nat.testBit_and, Nat.testBit_shiftLeft, Nat.testBit_and]
  rcases Nat.lt_or_ge i 2 with hi | hi
  · have : ¬ (2 ≤ i) := by omega
    simp [this]
  · have h3 : (3 : Nat).testBit i = false := by
      have : (3 : Nat) < 2 ^ i := by
        calc (3 : Nat) < 2 ^ 2 := by norm_num
        _ ≤ 2 ^ i := Nat.pow_le_pow_right (by norm_num) hi
      exact Nat.testBit_lt_two_pow this
    simp [h3]

lemma filter_zero_and (L : List Nat) :
    L.filter (fun i => (0 : Nat) &&& (1 <<< i) != 0) = [] := by
  simp [Nat.zero_and]

/-- C9: for every position, the black perspective of the CastlingRight
feature is degenerate: `append_active_indices` with perspective BLACK
appends no index and `append_changed_indices` with perspective BLACK
removes no index, because `((castling_rights & 3) << 2) &
((castling_rights >> 2) & 3)` combines disjoint bit ranges with bitwise
AND and is therefore always zero. -/
theorem castlingRight_black_perspective_always_empty
    (cr prevCr curCr rawMaxActive : Nat)
    (active removed : List Nat) :
    blackRelativeCastlingRights cr = 0
    ∧ castlingRightAppendActive rawMaxActive cr Color.black active = active
    ∧ castlingRightAppendChanged prevCr curCr Color.black removed = removed := by
  refine ⟨blackRelativeCastlingRights_eq_zero cr, ?_, ?_⟩
  · unfold castlingRightAppendActive
    by_cases h : rawMaxActive < castlingRightDimensions
    · simp [h]
    · simp only [h, if_false]
      rw [blackRelativeCastlingRights_eq_zero, filter_zero_and, List.append_nil]
  · unfold castlingRightAppendChanged
    simp only [blackRelativeCastlingRights_eq_zero]
    have : (List.range castlingRightDimensions).filter
        (fun i => ((0 : Nat) &&& (1 <<< i) != 0) && ((0 : Nat) &&& (1 <<< i) == 0))
        = [] := by
      simp [Nat.zero_and]
    rw [this, List.append_nil]

/-! ## SharedInputTrainer::create (src/nnue/trainer/trainer_input_slice.h)

`create` holds a function-local `static std::shared_ptr<SharedInputTrainer>
instance`: one global instance, created on the first call and bound to
the `FeatureTransformer*` of that first call.  Every later call ignores
its argument, bumps `num_referrers_` and returns the same instance.
Feature-transformer objects are identified by `Nat`. -/

structure SITCreateState where
  /-- The feature transformer the unique global instance was built on,
  `none` before the first call. -/
  instanceFt : Option Nat
  /-- `num_referrers_` of the global instance (0 before the first call). -/
  numReferrers : Nat
deriving DecidableEq, Repr

/-- One call of `SharedInputTrainer::create(ft)`: returns the new state
and the feature transformer of the instance handed back to the caller. -/
def sharedInputTrainerCreate (s : SITCreateState) (ft : Nat) :
    SITCreateState × Nat :=
  match s.instanceFt with
  | none => (⟨some ft, 1⟩, ft)
  | some f => (⟨some f, s.numReferrers + 1⟩, f)

/-- State after a sequence of `create` calls, starting from the empty
static. -/
def createRun (calls : List Nat) : SITCreateState :=
  calls.foldl (fun s ft => (sharedInputTrainerCreate s ft).1) ⟨none, 0⟩

/-- One `create` call together with a log of the instances handed back
(the feature transformer each returned instance is bound to). -/
def createStep (p : SITCreateState × List Nat) (ft : Nat) :
    SITCreateState × List Nat :=
  let r := sharedInputTrainerCreate p.1 ft
  (r.1, p.2 ++ [r.2])

/-- The instances handed back by a sequence of `create` calls. -/
def createRunReturns (calls : List Nat) : List Nat :=
  (calls.foldl createStep (⟨none, 0⟩, [])).2

/-- C2 fails on the code: after `create(0); create(1);` there is no
instance bound to feature transformer 1 — the single static instance is
still bound to 0 — and its referrer count is 2 although only one path
requested a trainer for object 0.  The claim (one instance per
feature-transformer object, reference-counted per object) is false. -/
theorem sharedInputTrainerCreate_not_per_object :
    ¬ (∀ o ∈ [0, 1], (createRun [0, 1]).instanceFt = some o
        ∧ (createRun [0, 1]).numReferrers = List.count o [0, 1]) := by
  intro h
  have h1 := h 1 (by simp)
  have : (createRun [0, 1]).instanceFt = some 0 := by decide
  rw [this] at h1
  exact absurd h1.1 (by decide)

lemma createRun_cons_closed (ft : Nat) (rest : List Nat) :
    (rest.foldl (fun s f => (sharedInputTrainerCreate s f).1)
        ⟨some ft, 1⟩ : SITCreateState)
      = ⟨some ft, rest.length + 1⟩ := by
  induction rest generalizing ft with
  | nil => rfl
  | cons g rs ih =>
    simp only [List.foldl_cons]
    have step : (sharedInputTrainerCreate ⟨some ft, 1⟩ g).1
        = ⟨some ft, 2⟩ := rfl
    rw [step]
    -- fold from a state with count 2: shift the generic lemma
    have gen : ∀ (l : List Nat) (f : Nat) (n : Nat),
        (l.foldl (fun s x => (sharedInputTrainerCreate s x).1)
          ⟨some f, n⟩ : SITCreateState) = ⟨some f, n + l.length⟩ := by
      intro l
      induction l with
      | nil => intro f n; simp
      | cons y ys ihy =>
        intro f n
        simp only [List.foldl_cons]
        have : (sharedInputTrainerCreate ⟨some f, n⟩ y).1
            = ⟨some f, n + 1⟩ := rfl
        rw [this, ihy]
        simp only [List.length_cons, SITCreateState.mk.injEq, true_and]
        omega
    rw [gen]
    simp only [List.length_cons, SITCreateState.mk.injEq, true_and]
    omega

/-- C2 amended: at most one `SharedInputTrainer` instance exists
globally; it is bound to the feature transformer of the *first*
`create` call, every later call returns that same instance regardless
of its own argument, and the referrer count equals the total number of
`create` calls. -/
theorem sharedInputTrainerCreate_global_singleton
    (ft : Nat) (rest : List Nat) :
    createRun (ft :: rest) = ⟨some ft, rest.length + 1⟩
    ∧ createRunReturns (ft :: rest) = List.replicate (rest.length + 1) ft := by
  constructor
  · unfold createRun
    simp only [List.foldl_cons]
    have : (sharedInputTrainerCreate ⟨none, 0⟩ ft).1 = ⟨some ft, 1⟩ := rfl
    rw [this]
    exact createRun_cons_closed ft rest
  · unfold createRunReturns
    simp only [List.foldl_cons]
    have step0 : createStep (⟨none, 0⟩, []) ft
        = ((⟨some ft, 1⟩ : SITCreateState), [ft]) := rfl
    rw [step0]
    have gen : ∀ (l : List Nat) (f : Nat) (n : Nat) (acc : List Nat),
        (l.foldl createStep (⟨some f, n⟩, acc)).2
          = acc ++ List.replicate l.length f := by
      intro l
      induction l with
      | nil => intro f n acc; simp
      | cons y ys ihy =>
        intro f n acc
        simp only [List.foldl_cons]
        have : createStep (⟨some f, n⟩, acc) y
            = ((⟨some f, n + 1⟩ : SITCreateState), acc ++ [f]) := rfl
        rw [this, ihy]
        simp [List.replicate_succ, List.append_assoc]
    rw [gen]
    simp [List.replicate_succ]

/-! ## MultiThinkGenSfen::commit_psv (gensfen.cpp)

A buffered game is a list of records; only the `game_result` field
matters here, so records are their `game_result` values (`Int`,
conceptually `int8_t` in {-1,0,1}).  `get_next_loop_count()` is a
global counter; `finished i` tells whether the i-th call of this commit
returns `LOOP_COUNT_FINISHED`. -/

/-- The backfill loop of `commit_psv`, walking the buffered records
from last to first (`rev` is the reversed buffer).  Each iteration
negates `is_win`, assigns it to the record, then consults the loop
counter: if finished, that record is *not* counted for commitment and
the loop quits.  Returns the `game_result` values of the committed
records in last-to-first order, and the quit flag. -/
def commitLoop : List Int → Int → Nat → (Nat → Bool) → List Int × Bool
  | [], _, _, _ => ([], false)
  | _ :: rest, isWin, i, finished =>
    if finished i then ([], true)
    else
      ((-isWin) :: (commitLoop rest (-isWin) (i + 1) finished).1,
        (commitLoop rest (-isWin) (i + 1) finished).2)

/-- `MultiThinkGenSfen::commit_psv`: skips everything when the game is
a draw and draw writing is disabled; otherwise backfills results from
the last record backwards and writes the committed suffix in move
order.  Returns the committed records' `game_result` values in move
order, and the quit flag. -/
def commit_psv (sfens : List Int) (lastTurnIsWin : Int)
    (writeDraw : Bool) (finished : Nat → Bool) : List Int × Bool :=
  if !writeDraw && lastTurnIsWin == 0 then ([], false)
  else
    ((commitLoop sfens.reverse lastTurnIsWin 0 finished).1.reverse,
      (commitLoop sfens.reverse lastTurnIsWin 0 finished).2)

lemma commitLoop_getD (rev : List Int) (isWin : Int) (i : Nat)
    (finished : Nat → Bool) :
    ∀ j, j < (commitLoop rev isWin i finished).1.length →
      (commitLoop rev isWin i finished).1.getD j 0 = (-1) ^ (j + 1) * isWin := by
  induction rev generalizing isWin i with
  | nil => intro j hj; simp [commitLoop] at hj
  | cons x rest ih =>
    intro j hj
    by_cases hf : finished i
    · simp [commitLoop, hf] at hj
    · simp only [commitLoop, if_neg hf] at hj ⊢
      cases j with
      | zero => simp only [List.getD_cons_zero]; ring
      | succ k =>
        simp only [List.length_cons, Nat.add_lt_add_iff_right] at hj
        have := ih (-isWin) (i + 1) k hj
        simp only [List.getD_cons_succ, this]
        ring

/-- C3: for every buffered game committed by `commit_psv`, writing `r`
for the terminal result assigned to the committed record at the last
recorded ply, the committed record `N` plies earlier has `game_result
= r * (-1)^N`: the sign alternates each ply from last to first (and a
draw stays 0). -/
theorem commit_psv_sign_alternation
    (sfens : List Int) (lastTurnIsWin : Int) (writeDraw : Bool)
    (finished : Nat → Bool) (N : Nat)
    (hN : N < (commit_psv sfens lastTurnIsWin writeDraw finished).1.length) :
    (commit_psv sfens lastTurnIsWin writeDraw finished).1.getD
        ((commit_psv sfens lastTurnIsWin writeDraw finished).1.length - 1 - N) 0
      = (commit_psv sfens lastTurnIsWin writeDraw finished).1.getD
          ((commit_psv sfens lastTurnIsWin writeDraw finished).1.length - 1) 0
        * (-1) ^ N := by
  unfold commit_psv at *
  by_cases hd : (!writeDraw && lastTurnIsWin == 0) = true
  · simp [hd] at hN
  · simp only [if_neg hd] at hN ⊢
    set res := (commitLoop sfens.reverse lastTurnIsWin 0 finished).1 with hres
    simp only [List.length_reverse] at hN ⊢
    have hlen : 0 < res.length := Nat.lt_of_le_of_lt (Nat.zero_le N) hN
    have hrev : ∀ k, k < res.length →
        res.reverse.getD (res.length - 1 - k) 0 = res.getD k 0 := by
      intro k hk
      rw [List.getD_eq_getElem?_getD, List.getD_eq_getElem?_getD,
        List.getElem?_reverse (by omega)]
      congr 1
      congr 1
      omega
    have h0 := hrev 0 hlen
    have hNrev := hrev N hN
    simp only [Nat.sub_zero] at h0
    rw [hNrev, h0]
    rw [commitLoop_getD sfens.reverse lastTurnIsWin 0 finished N hN,
      commitLoop_getD sfens.reverse lastTurnIsWin 0 finished 0 hlen]
    ring

/-- Witness for C3 at a concrete game: three buffered records, terminal
result +1 (win for the side to move after the last recorded ply), no
loop-count exhaustion.  The committed results are [1, -1, 1] in move
order, and the record 2 plies before the last satisfies the sign rule. -/
theorem commit_psv_sign_alternation_witness :
    (commit_psv [9, 9, 9] 1 true (fun _ => false)).1.getD 0 0
      = (commit_psv [9, 9, 9] 1 true (fun _ => false)).1.getD 2 0 * (-1) ^ 2 :=
  by
  have h := commit_psv_sign_alternation [9, 9, 9] 1 true (fun _ => false) 2
    (by decide)
  simpa using h

/-! ## Sum layer read_parameters (src/nnue/layers/sum.h)

`Sum<Head, Tail...>::read_parameters(stream)` first reads the tail
(`Tail::read_parameters`), returning false immediately when that
fails, and only then reads the head summand's subgraph.  So the
summands are read in reverse template-argument order, and a failure
stops all further reads.  A summand's subgraph read is modelled as an
abstract stream transformer that either consumes from the stream or
fails (`none` = short read / `return false`); failure is a return
value, not an exception. -/

/-- A byte stream (abstract). -/
abbrev ByteStream := List Nat

/-- One summand subgraph's `read_parameters`. -/
abbrev ParamReader := ByteStream → Option ByteStream

/-- `Sum<...>::read_parameters`, instrumented with the number of
summand reads actually attempted.  The list holds the summands in
template-argument order; the variadic recursion reads the tail of the
list first (matching the C++ base-class-first call). -/
def sumReadParams : List ParamReader → ByteStream → Option ByteStream × Nat
  | [], s => (some s, 0)
  | [r], s => (r s, 1)
  | r :: rs, s =>
    match sumReadParams rs s with
    | (none, k) => (none, k)
    | (some s2, k) =>
      (r s2, k + 1)

/-- Sequential reference reader: attempt each reader in list order,
stopping at the first failure. -/
def seqRead : List ParamReader → ByteStream → Option ByteStream
  | [], s => some s
  | r :: rs, s => (r s).bind (seqRead rs)

/-- Number of readers `seqRead` attempts: all of them on success, and
exactly through the first failing one otherwise. -/
def seqAttempts : List ParamReader → ByteStream → Nat
  | [], _ => 0
  | r :: rs, s => 1 + ((r s).map (seqAttempts rs)).getD 0

lemma seqRead_snoc (l : List ParamReader) (r : ParamReader) (s : ByteStream) :
    seqRead (l ++ [r]) s = (seqRead l s).bind r := by
  induction l generalizing s with
  | nil => simp [seqRead]
  | cons r0 rs ih =>
    simp only [List.cons_append, seqRead]
    cases r0 s with
    | none => rfl
    | some s2 => simp [ih s2]

lemma seqAttempts_snoc (l : List ParamReader) (r : ParamReader) (s : ByteStream) :
    seqAttempts (l ++ [r]) s
      = seqAttempts l s + ((seqRead l s).map (fun _ => 1)).getD 0 := by
  induction l generalizing s with
  | nil =>
    simp only [List.nil_append, seqAttempts, seqRead, Option.map_some,
      Option.getD_some, Nat.zero_add]
    cases r s <;> simp
  | cons r0 rs ih =>
    simp only [List.cons_append, seqAttempts, seqRead, List.append_eq]
    cases hr : r0 s with
    | none => simp
    | some s2 => simp [ih s2]; omega

lemma seqAttempts_le_length (l : List ParamReader) (s : ByteStream) :
    seqAttempts l s ≤ l.length := by
  induction l generalizing s with
  | nil => simp [seqAttempts]
  | cons r rs ih =>
    simp only [seqAttempts, List.length_cons]
    cases hr : r s with
    | none => simp
    | some s2 =>
      have := ih s2
      simp only [Option.map_some', Option.getD_some]
      omega

lemma seqAttempts_of_isSome (l : List ParamReader) (s : ByteStream)
    (h : (seqRead l s).isSome) : seqAttempts l s = l.length := by
  induction l generalizing s with
  | nil => simp [seqAttempts]
  | cons r rs ih =>
    simp only [seqRead] at h
    simp only [seqAttempts, List.length_cons]
    cases hr : r s with
    | none => rw [hr] at h; simp at h
    | some s2 =>
      rw [hr] at h
      simp only [Option.some_bind] at h
      simp only [Option.map_some', Option.getD_some, ih s2 h]
      omega

lemma sumReadParams_eq_seq (rs : List ParamReader) (s : ByteStream) :
    sumReadParams rs s = (seqRead rs.reverse s, seqAttempts rs.reverse s) := by
  induction rs generalizing s with
  | nil => simp [sumReadParams, seqRead, seqAttempts]
  | cons r rest ih =>
    cases rest with
    | nil =>
      simp only [sumReadParams, List.reverse_cons, List.reverse_nil,
        List.nil_append, seqRead, seqAttempts]
      cases r s <;> simp [seqRead, seqAttempts]
    | cons r2 rest2 =>
      have hrev : (r :: r2 :: rest2).reverse = (r2 :: rest2).reverse ++ [r] := by
        simp
      rw [hrev, seqRead_snoc, seqAttempts_snoc]
      show (match sumReadParams (r2 :: rest2) s with
        | (none, k) => (none, k)
        | (some s2, k) => (r s2, k + 1))
        = _
      rw [ih]
      cases hs : seqRead (r2 :: rest2).reverse s with
      | none => simp
      | some s2 => simp

/-- C8: `Sum::read_parameters` succeeds exactly when every summand
subgraph's read succeeds in processing order (the sequential reference
`seqRead` over the summands in their processing order), it attempts
reads exactly up to and including the first failing summand
(`seqAttempts`), on success every summand was attempted, and a failure
is reported as the `none`/false return value without attempting the
remaining summands (attempt count at most the summand count). -/
theorem sum_read_parameters_short_read
    (rs : List ParamReader) (s : ByteStream) :
    (sumReadParams rs s).1 = seqRead rs.reverse s
    ∧ (sumReadParams rs s).2 = seqAttempts rs.reverse s
    ∧ ((sumReadParams rs s).1.isSome → (sumReadParams rs s).2 = rs.length)
    ∧ ((sumReadParams rs s).1 = none → (sumReadParams rs s).2 ≤ rs.length) := by
  have h := sumReadParams_eq_seq rs s
  refine ⟨by rw [h], by rw [h], ?_, ?_⟩
  · intro hs
    rw [h] at hs ⊢
    simpa using seqAttempts_of_isSome rs.reverse s hs
  · intro _
    rw [h]
    simpa using seqAttempts_le_length rs.reverse s

/-- Witness for C8 at a concrete sum of three summands over a 2-byte
stream: the first two summands read one byte each and succeed, the
third fails; read_parameters reports failure and attempted exactly the
reads through the failing summand. -/
theorem sum_read_parameters_short_read_witness :
    (sumReadParams [fun s => some s, fun s => some s] [7]).2 = 2 := by
  have h := sum_read_parameters_short_read
    [fun s => some s, fun s => some s] [7]
  exact h.2.2.1 (by rfl)

/-! ## FeatureSetBase::append_changed_indices (nnue/features/feature_set.h)

The refresh triggers, the position's most recent piece-movement delta
(`StateInfo::dirtyPiece`: `dirty_num` and the first moved piece
`piece[0]`), and the per-perspective loop body of
`append_changed_indices`.  The derived feature set's
`collect_active_indices` / `collect_changed_indices` are abstracted as
functions of the perspective (the position and trigger are fixed). -/

inductive TriggerEvent where
  | kNone
  | kFriendKingMoved
  | kEnemyKingMoved
  | kAnyKingMoved
  | kAnyPieceMoved
deriving DecidableEq, Repr

/-- The most recent piece-movement delta of the position
(`pos.state()->dirtyPiece`), reduced to the fields
`append_changed_indices` reads: `dirty_num` and `piece[0]`. -/
structure DirtyPiece where
  dirtyNum : Nat
  piece0 : Piece
deriving DecidableEq, Repr

/-- The loop body of `FeatureSetBase::append_changed_indices` for one
perspective: the `switch (trigger)` decides the reset flag (`continue`
skips the perspective when `dirty_num == 0` for the king triggers), and
then either the full active indices are appended to `added` (reset) or
the incremental removed/added indices are appended. -/
def appendChangedPersp (dp : DirtyPiece) (trigger : TriggerEvent)
    (perspective : Color)
    (collectActive : Color → List Nat)
    (collectChanged : Color → List Nat × List Nat)
    (removed added : List Nat) (reset : Bool) :
    List Nat × List Nat × Bool :=
  -- shared tail of the loop body, after the switch decided `reset`
  let proceed : Bool → List Nat × List Nat × Bool := fun r =>
    if r then (removed, added ++ collectActive perspective, r)
    else (removed ++ (collectChanged perspective).1,
      added ++ (collectChanged perspective).2, r)
  match trigger with
  | .kNone => proceed reset
  | .kFriendKingMoved =>
    if dp.dirtyNum = 0 then (removed, added, reset)
    else proceed (dp.piece0 == makeKing perspective)
  | .kEnemyKingMoved =>
    if dp.dirtyNum = 0 then (removed, added, reset)
    else proceed (dp.piece0 == makeKing perspective.other)
  | .kAnyKingMoved =>
    if dp.dirtyNum = 0 then (removed, added, reset)
    else proceed dp.piece0.isKing
  | .kAnyPieceMoved => proceed true

/-- `FeatureSetBase::append_changed_indices`, looping over the two
perspectives; `st c` packs perspective `c`'s incoming removed list,
added list and reset flag. -/
def appendChangedIndices (dp : DirtyPiece) (trigger : TriggerEvent)
    (collectActive : Color → List Nat)
    (collectChanged : Color → List Nat × List Nat)
    (st : Color → List Nat × List Nat × Bool) :
    Color → List Nat × List Nat × Bool :=
  fun c => appendChangedPersp dp trigger c collectActive collectChanged
    (st c).1 (st c).2.1 (st c).2.2

/-- C6 fails on the code: for the trigger `kAnyPieceMoved` an empty
piece-movement delta list (`dirty_num == 0`) does *not* skip the
perspective — the reset flag is set unconditionally and a full
recomputation appends the active indices.  Concretely, with an empty
delta, one active index 0 and everything initially empty/false, the
white perspective ends with `added = [0]` and `reset = true` instead of
unchanged. -/
theorem appendChanged_empty_delta_not_skipped :
    ¬ (appendChangedPersp ⟨0, ⟨Color.white, false⟩⟩ TriggerEvent.kAnyPieceMoved
        Color.white (fun _ => [0]) (fun _ => ([], [])) [] [] false
        = ([], [], false)) := by
  decide

/-- C6 amended: the empty-delta skip holds for the king-movement
triggers only.  For trigger `kFriendKingMoved`, `kEnemyKingMoved` or
`kAnyKingMoved`, if the position's most recent piece-movement delta
list is empty (`dirty_num == 0`), `append_changed_indices` skips each
perspective entirely: nothing is appended to either perspective's
removed and added lists and neither perspective's reset flag is
written.  (For `kAnyPieceMoved` the reset flag is set and a full
recomputation runs regardless of the delta; for `kNone` the switch
performs no skip and the incoming reset flag decides.) -/
theorem appendChanged_empty_delta_skips_king_triggers
    (dp : DirtyPiece) (trigger : TriggerEvent)
    (collectActive : Color → List Nat)
    (collectChanged : Color → List Nat × List Nat)
    (st : Color → List Nat × List Nat × Bool)
    (hdp : dp.dirtyNum = 0)
    (htrig : trigger = TriggerEvent.kFriendKingMoved
      ∨ trigger = TriggerEvent.kEnemyKingMoved
      ∨ trigger = TriggerEvent.kAnyKingMoved) :
    ∀ c, appendChangedIndices dp trigger collectActive collectChanged st c
      = st c := by
  intro c
  unfold appendChangedIndices appendChangedPersp
  rcases htrig with h | h | h <;> subst h <;> simp [hdp]

/-- Witness for the amended C6 at a concrete empty delta: trigger
`kFriendKingMoved`, one active index available, initial state empty —
both perspectives stay untouched. -/
theorem appendChanged_empty_delta_skips_king_triggers_witness :
    appendChangedIndices ⟨0, ⟨Color.white, true⟩⟩ TriggerEvent.kFriendKingMoved
        (fun _ => [0]) (fun _ => ([1], [2])) (fun _ => ([], [], false))
        Color.black
      = ([], [], false) :=
  appendChanged_empty_delta_skips_king_triggers
    ⟨0, ⟨Color.white, true⟩⟩ TriggerEvent.kFriendKingMoved
    (fun _ => [0]) (fun _ => ([1], [2])) (fun _ => ([], [], false))
    rfl (Or.inl rfl) Color.black

/-! ## Newbob scheduler: LearnerThink::save (src/learn/learn.cpp)

The state the checkpoint/scheduling logic of `save` reads and writes:
the function-local `static int trials` (initialised to
`newbob_num_trials`), `best_loss` (a double initialised to +infinity,
hence `WithTop ℚ`), the accumulated validation loss
`latest_loss_sum` / `latest_loss_count`, `global_learning_rate`, and
the `auto_lr_drop` bookkeeping.  Doubles are modelled as rationals. -/

structure LearnState where
  saveOnlyOnce : Bool
  newbobDecay : ℚ
  newbobNumTrials : Int
  trials : Int
  /-- `best_loss`; `none` is the `+infinity` it is initialised to. -/
  bestLoss : Option ℚ
  latestLossSum : ℚ
  latestLossCount : Nat
  learningRate : ℚ
  autoLrDrop : Nat
  lastLrDrop : Nat
  totalDone : Nat

/-- The double comparison `latest_loss < best_loss`, where `best_loss`
may still be its initial `+infinity`. -/
def lossImproved (latest : ℚ) (best : Option ℚ) : Bool :=
  match best with
  | none => true
  | some b => latest < b

/-- `LearnerThink::save(is_final)`: returns the convergence flag and
the updated scheduler state.  Mirrors learn.cpp lines 1164-1237: the
`save_only_once` and `is_final` early paths, the newbob guard
(`newbob_decay != 1.0 && latest_loss_count > 0`), the `auto_lr_drop`
branch, the accept branch (`latest_loss < best_loss`), the reject
branch (`--trials > 0 && !is_final` gates the learning-rate shrink),
and the final `trials == 0` convergence report. -/
def LearnerThink.save (st : LearnState) (isFinal : Bool) : Bool × LearnState :=
  if st.saveOnlyOnce then (false, st)
  else if isFinal then (true, st)
  else if st.newbobDecay ≠ 1 ∧ 0 < st.latestLossCount then
    let latestLoss : ℚ := st.latestLossSum / st.latestLossCount
    let st1 : LearnState := { st with latestLossSum := 0, latestLossCount := 0 }
    let st2 : LearnState :=
      if st.autoLrDrop ≠ 0 then
        let st3 : LearnState := { st1 with
          bestLoss := some latestLoss,
          trials := st.newbobNumTrials }
        if st.lastLrDrop + st.autoLrDrop ≤ st.totalDone then
          { st3 with
            lastLrDrop := st.totalDone,
            learningRate := st.learningRate * st.newbobDecay }
        else st3
      else if lossImproved latestLoss st.bestLoss then
        { st1 with
          bestLoss := some latestLoss,
          trials := st.newbobNumTrials }
      else
        if st.trials - 1 > 0 ∧ ¬ isFinal then
          { st1 with
            trials := st.trials - 1,
            learningRate := st.learningRate * st.newbobDecay }
        else { st1 with trials := st.trials - 1 }
    if st2.trials = 0 then (true, st2) else (false, st2)
  else (false, st)

/-- The convergence handling in `LearnerThink::thread_worker`
(learn.cpp lines 979-985): when `save()` reports convergence, thread 0
sets both the learner stop flag and the reader stop flag. -/
def workerHandleSaveResult (converged : Bool)
    (stopFlag srStopFlag : Bool) : Bool × Bool :=
  if converged then (true, true) else (stopFlag, srStopFlag)

/-- A concrete scheduler state on its last trial with a non-improving
validation loss: best loss 3, new loss 5, one trial left. -/
def newbobLastTrialState : LearnState :=
  { saveOnlyOnce := false
    newbobDecay := 1 / 2
    newbobNumTrials := 4
    trials := 1
    bestLoss := some 3
    latestLossSum := 5
    latestLossCount := 1
    learningRate := 1
    autoLrDrop := 0
    lastLrDrop := 0
    totalDone := 0 }

lemma save_lastTrial_eval :
    LearnerThink.save newbobLastTrialState false
      = (true, { newbobLastTrialState with
          latestLossSum := 0, latestLossCount := 0, trials := 0 }) := by
  unfold LearnerThink.save newbobLastTrialState
  norm_num [lossImproved]

/-- C7 fails on the code: on a non-improving checkpoint that uses up
the last trial, the trial counter is decremented to zero and `save`
reports convergence, but the learning rate is *not* multiplied by the
newbob decay factor (the shrink is guarded by `--trials > 0`).  At
`newbobLastTrialState` (loss 5 ≥ best 3, one trial left, rate 1,
decay 1/2) the claim requires the new rate 1/2; the code leaves it 1. -/
theorem newbob_no_lr_shrink_on_last_trial :
    lossImproved (newbobLastTrialState.latestLossSum /
        (newbobLastTrialState.latestLossCount : ℚ))
        newbobLastTrialState.bestLoss = false
    ∧ (LearnerThink.save newbobLastTrialState false).2.trials
        = newbobLastTrialState.trials - 1
    ∧ (LearnerThink.save newbobLastTrialState false).2.learningRate
        ≠ newbobLastTrialState.learningRate * newbobLastTrialState.newbobDecay
    ∧ (LearnerThink.save newbobLastTrialState false).1 = true := by
  rw [save_lastTrial_eval]
  refine ⟨?_, rfl, ?_, rfl⟩
  · unfold newbobLastTrialState lossImproved
    norm_num
  · unfold newbobLastTrialState
    norm_num

/-- C7 amended: after each non-final checkpoint save with newbob
scheduling enabled (`newbob_decay != 1`, at least one validation-loss
sample, `auto_lr_drop` disabled): if the validation loss improved over
the best seen the checkpoint is accepted (best loss updated) and the
trial counter is reset to `newbob_num_trials` with the learning rate
untouched; otherwise the trial counter is decremented and the learning
rate is multiplied by the decay factor *only when the decremented
counter is still positive*; `save` reports convergence exactly when
the resulting counter is zero, and the worker then sets both stop
flags, stopping all learner threads. -/
theorem newbob_schedule (st : LearnState)
    (hso : st.saveOnlyOnce = false)
    (hdecay : st.newbobDecay ≠ 1)
    (hcount : 0 < st.latestLossCount)
    (hauto : st.autoLrDrop = 0) :
    (lossImproved (st.latestLossSum / (st.latestLossCount : ℚ))
        st.bestLoss = true →
      (LearnerThink.save st false).2.bestLoss
          = some (st.latestLossSum / (st.latestLossCount : ℚ))
      ∧ (LearnerThink.save st false).2.trials = st.newbobNumTrials
      ∧ (LearnerThink.save st false).2.learningRate = st.learningRate
      ∧ ((LearnerThink.save st false).1 = true ↔ st.newbobNumTrials = 0))
    ∧ (lossImproved (st.latestLossSum / (st.latestLossCount : ℚ))
        st.bestLoss = false →
      (LearnerThink.save st false).2.trials = st.trials - 1
      ∧ (LearnerThink.save st false).2.bestLoss = st.bestLoss
      ∧ (LearnerThink.save st false).2.learningRate
          = (if st.trials - 1 > 0 then st.learningRate * st.newbobDecay
             else st.learningRate)
      ∧ ((LearnerThink.save st false).1 = true ↔ st.trials - 1 = 0))
    ∧ (∀ a b : Bool, (LearnerThink.save st false).1 = true →
        workerHandleSaveResult (LearnerThink.save st false).1 a b
          = (true, true)) := by
  have hc : st.newbobDecay ≠ 1 ∧ 0 < st.latestLossCount := ⟨hdecay, hcount⟩
  refine ⟨?_, ?_, ?_⟩
  · intro himp
    unfold LearnerThink.save
    simp only [hso, Bool.false_eq_true, if_false, if_pos hc, hauto,
      ne_eq, not_true_eq_false, if_false, himp, if_true]
    by_cases hz : st.newbobNumTrials = 0 <;> simp [hz]
  · intro himp
    unfold LearnerThink.save
    simp only [hso, Bool.false_eq_true, if_false, if_pos hc, hauto,
      ne_eq, not_true_eq_false, if_false, himp]
    by_cases hpos : st.trials - 1 > 0
    · simp only [not_false_eq_true, and_true, if_pos hpos]
      have hz : ¬ (st.trials - 1 = 0) := by omega
      simp [hz, hpos]
    · simp only [not_false_eq_true, and_true, if_neg hpos]
      by_cases hz : st.trials - 1 = 0 <;> simp [hz, hpos]
  · intro a b hconv
    rw [hconv]
    rfl

/-- Witness for the amended C7 at `newbobLastTrialState`: the loss did
not improve, so the trial counter drops 1 → 0, the learning rate stays
1, convergence is reported and the worker raises both stop flags. -/
theorem newbob_schedule_witness :
    (LearnerThink.save newbobLastTrialState false).2.trials = 0
    ∧ workerHandleSaveResult (LearnerThink.save newbobLastTrialState false).1
        false false = (true, true) := by
  have hni : lossImproved (newbobLastTrialState.latestLossSum /
      (newbobLastTrialState.latestLossCount : ℚ))
      newbobLastTrialState.bestLoss = false := by
    unfold newbobLastTrialState lossImproved
    norm_num
  have h := newbob_schedule newbobLastTrialState rfl (by norm_num [newbobLastTrialState]) (by norm_num [newbobLastTrialState])
    rfl
  have h2 := h.2.1 hni
  have hconv : (LearnerThink.save newbobLastTrialState false).1 = true := by
    rw [h2.2.2.2]
    rfl
  have h3 := h.2.2 false false hconv
  refine ⟨?_, h3⟩
  rw [h2.1]
  rfl

/-! ## SharedInputTrainer::backpropagate (src/nnue/trainer/trainer_input_slice.h)

State machine of the shared input trainer during backpropagation.
Gradient arrays are lists of rationals (`LearnFloatType` batches of
size `kInputDimensions * batch_size_`); the calls forwarded to the
underlying feature-transformer trainer are logged as
(gradient, learning-rate) pairs. -/

/-- `SharedInputTrainer::Operation`. -/
inductive Operation where
  | kNone
  | kSendMessage
  | kInitialize
  | kPropagate
  | kBackPropagate
deriving DecidableEq, Repr

/-- The fields of `SharedInputTrainer` that `backpropagate` touches,
plus the log of calls it forwards to
`feature_transformer_trainer_->backpropagate`. -/
structure SITState where
  numReferrers : Nat
  numCalls : Nat
  currentOperation : Operation
  gradients : List ℚ
  underlyingCalls : List (List ℚ × ℚ)
deriving DecidableEq, Repr

/-- Element-wise accumulation `gradients_[i] += gradients[i]`. -/
def zipAdd (a b : List ℚ) : List ℚ := List.zipWith (fun x y => x + y) a b

/-- One call of `SharedInputTrainer::backpropagate(gradients,
learning_rate)`: a single referrer forwards directly; otherwise the
first call of a batch zeroes the accumulation buffer and sets the
operation, every call accumulates, and the call that makes
`num_calls_` reach `num_referrers_` forwards the accumulated buffer
and resets the counter and operation. -/
def sitBackpropagate (s : SITState) (g : List ℚ) (lr : ℚ) : SITState :=
  if s.numReferrers = 1 then
    { s with underlyingCalls := s.underlyingCalls ++ [(g, lr)] }
  else
    let s1 : SITState :=
      if s.numCalls = 0 then
        { s with
          currentOperation := Operation.kBackPropagate,
          gradients := List.replicate g.length 0 }
      else s
    let s2 : SITState := { s1 with gradients := zipAdd s1.gradients g }
    if s2.numCalls + 1 = s2.numReferrers then
      { s2 with
        underlyingCalls := s2.underlyingCalls ++ [(s2.gradients, lr)],
        numCalls := 0,
        currentOperation := Operation.kNone }
    else { s2 with numCalls := s2.numCalls + 1 }

/-- Idle shared trainer with `N` registered referrers, as at the start
of a mini-batch. -/
def initialSIT (N : Nat) : SITState :=
  ⟨N, 0, Operation.kNone, [], []⟩

/-- A sequence of `backpropagate` calls (one per referrer path). -/
def sitRun (s : SITState) (gs : List (List ℚ)) (lr : ℚ) : SITState :=
  gs.foldl (fun t g => sitBackpropagate t g lr) s

/-- Element-wise sum of the gradient arrays (all of length `L`). -/
def vecSum (L : Nat) (gs : List (List ℚ)) : List ℚ :=
  gs.foldl zipAdd (List.replicate L 0)

lemma zipAdd_replicate_zero (g : List ℚ) :
    zipAdd (List.replicate g.length 0) g = g := by
  induction g with
  | nil => rfl
  | cons x xs ih =>
    simp only [List.length_cons, List.replicate_succ, zipAdd,
      List.zipWith_cons_cons, zero_add, List.cons.injEq, true_and]
    exact ih

lemma sitBackpropagate_step (s : SITState) (g : List ℚ) (lr : ℚ)
    (hne1 : ¬ (s.numReferrers = 1)) (hnz : ¬ (s.numCalls = 0))
    (hnfin : ¬ (s.numCalls + 1 = s.numReferrers)) :
    sitBackpropagate s g lr
      = { s with
          gradients := zipAdd s.gradients g,
          numCalls := s.numCalls + 1 } := by
  simp only [sitBackpropagate, if_neg hne1, if_neg hnz, if_neg hnfin]

lemma sitBackpropagate_last (s : SITState) (g : List ℚ) (lr : ℚ)
    (hne1 : ¬ (s.numReferrers = 1)) (hnz : ¬ (s.numCalls = 0))
    (hfin : s.numCalls + 1 = s.numReferrers) :
    sitBackpropagate s g lr
      = { s with
          gradients := zipAdd s.gradients g,
          numCalls := 0,
          currentOperation := Operation.kNone,
          underlyingCalls :=
            s.underlyingCalls ++ [(zipAdd s.gradients g, lr)] } := by
  simp only [sitBackpropagate, if_neg hne1, if_neg hnz, if_pos hfin]

lemma sitRun_cons (s : SITState) (g : List ℚ) (gs : List (List ℚ)) (lr : ℚ) :
    sitRun s (g :: gs) lr = sitRun (sitBackpropagate s g lr) gs lr := by
  simp only [sitRun, List.foldl_cons]

lemma sitRun_mid (N : Nat) (hN : 2 ≤ N) (lr : ℚ) :
    ∀ (gs : List (List ℚ)) (s : SITState),
      s.numReferrers = N → 1 ≤ s.numCalls →
      s.currentOperation = Operation.kBackPropagate →
      s.numCalls + gs.length = N → 1 ≤ gs.length →
      sitRun s gs lr
        = { s with
            gradients := gs.foldl zipAdd s.gradients,
            numCalls := 0,
            currentOperation := Operation.kNone,
            underlyingCalls :=
              s.underlyingCalls ++ [(gs.foldl zipAdd s.gradients, lr)] } := by
  intro gs
  induction gs with
  | nil => intro s _ _ _ _ hg1; simp at hg1
  | cons g rest ih =>
    intro s href hcalls hop hlen _
    have hne1 : ¬ (s.numReferrers = 1) := by omega
    have hnz : ¬ (s.numCalls = 0) := by omega
    cases rest with
    | nil =>
      have hfin : s.numCalls + 1 = s.numReferrers := by
        simp only [List.length_cons, List.length_nil] at hlen
        omega
      rw [sitRun_cons, sitBackpropagate_last s g lr hne1 hnz hfin]
      simp [sitRun, List.foldl_cons]
    | cons g2 rest2 =>
      have hnfin : ¬ (s.numCalls + 1 = s.numReferrers) := by
        simp only [List.length_cons] at hlen
        omega
      rw [sitRun_cons, sitBackpropagate_step s g lr hne1 hnz hnfin]
      rw [ih { s with
          gradients := zipAdd s.gradients g,
          numCalls := s.numCalls + 1 }
        (by simpa using href) (by simp) (by simpa using hop)
        (by simp only [List.length_cons] at hlen ⊢; omega)
        (by simp)]
      simp [List.foldl_cons]

lemma sitRun_partial (N : Nat) (hN : 2 ≤ N) (lr : ℚ) :
    ∀ (gs : List (List ℚ)) (s : SITState),
      s.numReferrers = N → 1 ≤ s.numCalls →
      s.currentOperation = Operation.kBackPropagate →
      s.numCalls + gs.length < N →
      sitRun s gs lr
        = { s with
            gradients := gs.foldl zipAdd s.gradients,
            numCalls := s.numCalls + gs.length } := by
  intro gs
  induction gs with
  | nil => intro s _ _ hop _; simp [sitRun]
  | cons g rest ih =>
    intro s href hcalls hop hlt
    have hne1 : ¬ (s.numReferrers = 1) := by omega
    have hnz : ¬ (s.numCalls = 0) := by omega
    have hnfin : ¬ (s.numCalls + 1 = s.numReferrers) := by
      simp only [List.length_cons] at hlt
      omega
    rw [sitRun_cons, sitBackpropagate_step s g lr hne1 hnz hnfin]
    rw [ih { s with
        gradients := zipAdd s.gradients g,
        numCalls := s.numCalls + 1 }
      (by simpa using href) (by simp) (by simpa using hop)
      (by simp only [List.length_cons] at hlt ⊢; omega)]
    simp only [List.foldl_cons, List.length_cons]
    congr 1
    omega

/-- C1: for every mini-batch, a `SharedInputTrainer` with `N ≥ 1`
registered referrers whose referrer paths each call `backpropagate`
exactly once (gradient arrays all of length `L`) forwards exactly one
call to the underlying feature-transformer trainer, carrying the
element-wise sum of all `N` gradient arrays (and the learning rate);
that call happens on the `N`-th (final) referrer call — after any
proper prefix of the calls nothing has been forwarded — and the call
counter and operation state are back to idle (0, `kNone`) afterwards. -/
theorem sharedInputTrainer_backpropagate_once
    (N L : Nat) (hN : 1 ≤ N) (gs : List (List ℚ)) (lr : ℚ)
    (hlen : gs.length = N) (hL : ∀ g ∈ gs, g.length = L) :
    (sitRun (initialSIT N) gs lr).underlyingCalls = [(vecSum L gs, lr)]
    ∧ (sitRun (initialSIT N) gs lr).numCalls = 0
    ∧ (sitRun (initialSIT N) gs lr).currentOperation = Operation.kNone
    ∧ ∀ k, k < N →
        (sitRun (initialSIT N) (gs.take k) lr).underlyingCalls = [] := by
  cases gs with
  | nil => simp at hlen; omega
  | cons g rest =>
    have hgL : g.length = L := hL g (by simp)
    rcases Nat.lt_or_ge N 2 with hN1 | hN2
    · -- N = 1: direct forwarding
      have hNeq : N = 1 := by omega
      subst hNeq
      have hrest : rest = [] := by
        simp only [List.length_cons] at hlen
        exact List.length_eq_zero.mp (by omega)
      subst hrest
      refine ⟨?_, ?_, ?_, ?_⟩
      · simp only [sitRun, List.foldl_cons, List.foldl_nil,
          sitBackpropagate, initialSIT, if_pos rfl]
        simp only [vecSum, List.foldl_cons, List.foldl_nil]
        rw [← hgL, zipAdd_replicate_zero]
        rfl
      · simp [sitRun, sitBackpropagate, initialSIT]
      · simp [sitRun, sitBackpropagate, initialSIT]
      · intro k hk
        have : k = 0 := by omega
        subst this
        simp [sitRun, initialSIT]
    · -- N ≥ 2: accumulate, forward on the last call
      have hne1 : ¬ ((initialSIT N).numReferrers = 1) := by
        simp [initialSIT]; omega
      have hfirst : sitBackpropagate (initialSIT N) g lr
          = (⟨N, 1, Operation.kBackPropagate, g, []⟩ : SITState) := by
        simp only [sitBackpropagate, initialSIT]
        have hne : ¬ (N = 1) := by omega
        have hnfin : ¬ (0 + 1 = N) := by omega
        simp only [if_neg hne, if_pos rfl, if_neg hnfin]
        simp [zipAdd_replicate_zero]
        omega
      have hrest1 : 1 ≤ rest.length := by
        simp only [List.length_cons] at hlen
        omega
      have hmain := sitRun_mid N hN2 lr rest
        (⟨N, 1, Operation.kBackPropagate, g, []⟩ : SITState)
        rfl (by simp) rfl
        (by
          simp only [List.length_cons] at hlen
          show 1 + rest.length = N
          omega)
        hrest1
      have hstep : sitRun (initialSIT N) (g :: rest) lr
          = sitRun (⟨N, 1, Operation.kBackPropagate, g, []⟩ : SITState)
              rest lr := by
        rw [sitRun_cons, hfirst]
      have hsum : rest.foldl zipAdd g = vecSum L (g :: rest) := by
        simp only [vecSum, List.foldl_cons]
        rw [← hgL, zipAdd_replicate_zero]
      refine ⟨?_, ?_, ?_, ?_⟩
      · rw [hstep, hmain]
        simp [hsum, initialSIT]
      · rw [hstep, hmain]
      · rw [hstep, hmain]
      · intro k hk
        cases k with
        | zero => simp [sitRun, initialSIT]
        | succ k2 =>
          have htake : (g :: rest).take (k2 + 1) = g :: rest.take k2 := by
            simp [List.take_succ_cons]
          rw [htake]
          have hstep2 : sitRun (initialSIT N) (g :: rest.take k2) lr
              = sitRun (⟨N, 1, Operation.kBackPropagate, g, []⟩ : SITState)
                  (rest.take k2) lr := by
            rw [sitRun_cons, hfirst]
          have hklen : k2 ≤ rest.length := by
            simp only [List.length_cons] at hlen
            omega
          have hpart := sitRun_partial N hN2 lr (rest.take k2)
            (⟨N, 1, Operation.kBackPropagate, g, []⟩ : SITState)
            rfl (by simp) rfl
            (by
              show 1 + (rest.take k2).length < N
              simp only [List.length_take]
              omega)
          rw [hstep2, hpart]

/-- Witness for C1: two referrer paths (`N = 2`), gradient arrays
`[1, 2]` and `[10, 20]` of length 2, learning rate 1.  The underlying
trainer receives exactly one call carrying `[11, 22]`, after the first
call nothing is forwarded, and the trainer is idle afterwards. -/
theorem sharedInputTrainer_backpropagate_once_witness :
    (sitRun (initialSIT 2) [[1, 2], [10, 20]] 1).underlyingCalls
        = [(vecSum 2 [[1, 2], [10, 20]], 1)]
    ∧ (sitRun (initialSIT 2) ([[1, 2], [10, 20]].take 1) 1).underlyingCalls
        = [] := by
  have h := sharedInputTrainer_backpropagate_once 2 2 (by norm_num)
    [[1, 2], [10, 20]] 1 rfl
    (by intro g hg; simp at hg; rcases hg with h1 | h1 <;> simp [h1])
  exact ⟨h.1, h.2.2.2 1 (by norm_num)⟩

/-! ## Game-end adjudication (gensfen.cpp)

`MultiThinkGenSfen::get_current_game_result` plus the resign check that
follows it in `thread_worker`.  The externally supplied position facts
(variant game end, root-move emptiness, check, mate/stalemate values,
insufficient material) are abstracted into a record; scores are
centipawn integers. -/

/-- The facts `get_current_game_result` queries about the position. -/
structure GenPosition where
  /-- `pos.is_game_end(v)` (variant rule end), with the value it
  reports.  Not consulted when `ply >= write_maxply` (short-circuit). -/
  isGameEnd : Bool
  gameEndValue : Int
  /-- `pos.this_thread()->rootMoves.empty()`. -/
  rootMovesEmpty : Bool
  /-- `pos.checkers()`. -/
  checkers : Bool
  checkmateValue : Int
  stalemateValue : Int
  /-- `hasInsufficientMaterial(WHITE/BLACK, pos)`. -/
  insufficientMaterialWhite : Bool
  insufficientMaterialBlack : Bool

/-- The two static draw-adjudication toggles of gensfen.cpp. -/
structure GenFlags where
  detectDrawByConsecutiveLowScore : Bool
  detectDrawByInsufficientMatingMaterial : Bool

/-- `adj_draw_ply = 80`. -/
def adjDrawPly : Nat := 80

/-- `adj_draw_cnt = 8`. -/
def adjDrawCnt : Nat := 8

/-- `adj_draw_score = 0`. -/
def adjDrawScore : Int := 0

/-- `sign(v)`. -/
def signValue (v : Int) : Int := if v > 0 then 1 else if v < 0 then -1 else 0

/-- The scan over `move_hist_scores` from the most recent ply
backwards: count consecutive scores within the draw band, break at the
first outside it, adjudicate when the count reaches `adj_draw_cnt`. -/
def consecutiveLowScores : List Int → Nat → Bool
  | [], _ => false
  | s :: rest, n =>
    if s.natAbs ≤ adjDrawScore.natAbs then
      if n + 1 ≥ adjDrawCnt then true
      else consecutiveLowScores rest (n + 1)
    else false

/-- `MultiThinkGenSfen::get_current_game_result` (gensfen.cpp lines
400-483): `some r` is a game result, `none` is `nullopt` (game goes
on).  `ply` is `move_hist_scores.size()`. -/
def get_current_game_result (pos : GenPosition) (flags : GenFlags)
    (writeMaxply : Nat) (moveHistScores : List Int) : Option Int :=
  let ply := moveHistScores.length
  if writeMaxply ≤ ply then some (signValue 0)
  else if pos.isGameEnd then some (signValue pos.gameEndValue)
  else if pos.rootMovesEmpty then
    some (if pos.checkers then signValue pos.checkmateValue
      else signValue pos.stalemateValue)
  else if flags.detectDrawByConsecutiveLowScore
      && decide (adjDrawPly ≤ ply)
      && consecutiveLowScores moveHistScores.reverse 0 then some 0
  else if flags.detectDrawByInsufficientMatingMaterial
      && pos.insufficientMaterialWhite
      && pos.insufficientMaterialBlack then some 0
  else none

/-- The eval-limit resign check in `thread_worker` (gensfen.cpp lines
726-737), run when `get_current_game_result` returned `nullopt`:
returns the decisive result (if any) and the updated resign counter. -/
def resignCheck (shouldResign : Bool) (resignCounter : Nat)
    (searchValue evalLimit valueKnownWin : Int) : Option Int × Nat :=
  if evalLimit ≤ searchValue.natAbs then
    let c := resignCounter + 1
    if (shouldResign && decide (4 ≤ c))
        || decide (valueKnownWin ≤ searchValue.natAbs) then
      ((if evalLimit ≤ searchValue then some 1 else some (-1)), c)
    else (none, c)
  else (none, 0)

/-- One ply of the game-end logic of `thread_worker`: the adjudication
result takes precedence, the resign check runs only when it is
`nullopt`. -/
def plyGameEnd (pos : GenPosition) (flags : GenFlags) (writeMaxply : Nat)
    (moveHistScores : List Int) (shouldResign : Bool) (resignCounter : Nat)
    (searchValue evalLimit valueKnownWin : Int) : Option Int × Nat :=
  match get_current_game_result pos flags writeMaxply moveHistScores with
  | some r => (some r, resignCounter)
  | none => resignCheck shouldResign resignCounter searchValue evalLimit
      valueKnownWin

/-- C4: the game-end outcomes are applied in priority order, earlier
checks taking precedence: (1) reaching the maximum recorded ply is a
draw (the variant-rule `is_game_end` is not even consulted, by C++
short-circuit); (2) otherwise no legal root move gives the checkmate or
stalemate result; (3) otherwise eight consecutive most-recent scores in
the zero band from ply 80 give an adjudicated draw (when enabled);
(4) otherwise insufficient mating material on both sides gives a draw
(when enabled); (5) only when all adjudication checks pass does a score
at or above the resign threshold on the fourth consecutive such ply,
subject to the per-game random resign permission, give a decisive
result.  (2)-(5) are stated with the external variant game end off,
since that check shares the first `if` with (1). -/
theorem gensfen_adjudication_priority
    (pos : GenPosition) (flags : GenFlags) (writeMaxply : Nat)
    (scores : List Int) (shouldResign : Bool) (resignCounter : Nat)
    (searchValue evalLimit valueKnownWin : Int) :
    (writeMaxply ≤ scores.length →
      (plyGameEnd pos flags writeMaxply scores shouldResign resignCounter
        searchValue evalLimit valueKnownWin).1 = some 0)
    ∧ (scores.length < writeMaxply → pos.isGameEnd = false →
        pos.rootMovesEmpty = true →
      (plyGameEnd pos flags writeMaxply scores shouldResign resignCounter
        searchValue evalLimit valueKnownWin).1
        = some (if pos.checkers then signValue pos.checkmateValue
            else signValue pos.stalemateValue))
    ∧ (scores.length < writeMaxply → pos.isGameEnd = false →
        pos.rootMovesEmpty = false →
        flags.detectDrawByConsecutiveLowScore = true →
        adjDrawPly ≤ scores.length →
        consecutiveLowScores scores.reverse 0 = true →
      (plyGameEnd pos flags writeMaxply scores shouldResign resignCounter
        searchValue evalLimit valueKnownWin).1 = some 0)
    ∧ (scores.length < writeMaxply → pos.isGameEnd = false →
        pos.rootMovesEmpty = false →
        (flags.detectDrawByConsecutiveLowScore
          && decide (adjDrawPly ≤ scores.length)
          && consecutiveLowScores scores.reverse 0) = false →
        flags.detectDrawByInsufficientMatingMaterial = true →
        pos.insufficientMaterialWhite = true →
        pos.insufficientMaterialBlack = true →
      (plyGameEnd pos flags writeMaxply scores shouldResign resignCounter
        searchValue evalLimit valueKnownWin).1 = some 0)
    ∧ (get_current_game_result pos flags writeMaxply scores = none →
        shouldResign = true → 4 ≤ resignCounter + 1 →
        evalLimit ≤ searchValue.natAbs →
      (plyGameEnd pos flags writeMaxply scores shouldResign resignCounter
        searchValue evalLimit valueKnownWin).1
        = some (if evalLimit ≤ searchValue then 1 else -1)) := by
  refine ⟨?_, ?_, ?_, ?_, ?_⟩
  · intro hply
    simp [plyGameEnd, get_current_game_result, signValue, hply]
  · intro hply hend hroot
    simp [plyGameEnd, get_current_game_result, hend, hroot,
      Nat.not_le.mpr hply]
  · intro hply hend hroot hflag h80 hcons
    simp [plyGameEnd, get_current_game_result, hend, hroot, hflag, h80,
      hcons, Nat.not_le.mpr hply]
  · intro hply hend hroot hlow hflag hw hb
    simp [plyGameEnd, get_current_game_result, hend, hroot, hlow, hflag,
      hw, hb, Nat.not_le.mpr hply]
  · intro hnone hsr hcnt hlim
    simp only [plyGameEnd, hnone, resignCheck, if_pos hlim, hsr,
      decide_eq_true hcnt, Bool.true_and, Bool.true_or]
    by_cases hv : evalLimit ≤ searchValue <;> simp [hv]

/-- Witness for C4: a concrete draw-band-adjudicated game — 80 plies
all scoring 0 with legal moves available — ends `some 0` via check (3)
(conjunct 3 of the priority theorem, discharged at ply 80 < maxply
400), and the resign branch at a +400 score with permission and three
prior resign plies yields `some 1` on a position with no adjudicated
end. -/
theorem gensfen_adjudication_priority_witness :
    (plyGameEnd
        ⟨false, 0, false, false, -1, 0, false, false⟩
        ⟨true, true⟩ 400 (List.replicate 80 0) true 0 0 3000 31000).1
      = some 0
    ∧ (plyGameEnd
        ⟨false, 0, false, false, -1, 0, false, false⟩
        ⟨false, false⟩ 400 [5] true 3 400 400 31000).1
      = some 1 := by
  constructor
  · have h := gensfen_adjudication_priority
      ⟨false, 0, false, false, -1, 0, false, false⟩
      ⟨true, true⟩ 400 (List.replicate 80 0) true 0 0 3000 31000
    exact h.2.2.1 (by simp) rfl rfl rfl (by decide) (by decide)
  · have h := gensfen_adjudication_priority
      ⟨false, 0, false, false, -1, 0, false, false⟩
      ⟨false, false⟩ 400 [5] true 3 400 400 31000
    have h5 := h.2.2.2.2 (by decide) rfl (by norm_num) (by decide)
    rw [h5]
    norm_num

/-! ## Algo::shuffle (misc.h) and the SfenReader block shuffle
(src/learn/learn.cpp, file_read_worker)

Fisher-Yates over a list: step `i` swaps `buf[i]` with
`buf[rand(size - i) + i]`, where `rand(n) = rand64() % n`.  The PRNG is
abstracted as the stream `rng` of raw `rand64()` outputs. -/

/-- `std::swap(buf[i], buf[j])`. -/
def swapEntries {α : Type} (l : List α) (i j : Nat) : List α :=
  match l[i]?, l[j]? with
  | some a, some b => (l.set i b).set j a
  | _, _ => l

lemma swapEntries_perm {α : Type} (l : List α) (i j : Nat) :
    (swapEntries l i j).Perm l := by
  classical
  unfold swapEntries
  cases hi : l[i]? with
  | none => exact List.Perm.refl l
  | some a =>
    cases hj : l[j]? with
    | none => exact List.Perm.refl l
    | some b =>
      show ((l.set i b).set j a).Perm l
      have hil : i < l.length := by
        by_contra hc
        rw [List.getElem?_eq_none (by omega)] at hi
        exact Option.noConfusion hi
      have hjl : j < l.length := by
        by_contra hc
        rw [List.getElem?_eq_none (by omega)] at hj
        exact Option.noConfusion hj
      have ha : l[i] = a := by
        have := List.getElem?_eq_getElem hil
        rw [hi] at this
        exact (Option.some.injEq _ _).mp this.symm
      have hb : l[j] = b := by
        have := List.getElem?_eq_getElem hjl
        rw [hj] at this
        exact (Option.some.injEq _ _).mp this.symm
      rw [List.perm_iff_count]
      intro c
      have h1 : (if a == c then 1 else 0) ≤ l.count c := by
        by_cases hc : a == c
        · simp only [hc, if_true]
          have hmem : a ∈ l := ha ▸ List.getElem_mem hil
          have : c ∈ l := by rwa [eq_of_beq hc] at hmem
          exact List.one_le_count_iff.mpr this
        · simp [hc]
      have h2 : (if b == c then 1 else 0) ≤ l.count c := by
        by_cases hc : b == c
        · simp only [hc, if_true]
          have hmem : b ∈ l := hb ▸ List.getElem_mem hjl
          have : c ∈ l := by rwa [eq_of_beq hc] at hmem
          exact List.one_le_count_iff.mpr this
        · simp [hc]
      by_cases hij : i = j
      · subst hij
        have hab : a = b := by rw [← ha, ← hb]
        subst hab
        rw [List.set_set, List.count_set _ _ _ _ hil, ha]
        omega
      · rw [List.count_set _ _ _ _ (by rwa [List.length_set]),
          List.count_set _ _ _ _ hil,
          List.getElem_set_ne (by omega), ha, hb]
        omega

/-- The Fisher-Yates loop of `Algo::shuffle`, from index `i` with
`fuel` iterations left. -/
def shuffleAux {α : Type} : Nat → List α → (Nat → Nat) → Nat → List α
  | 0, l, _, _ => l
  | fuel + 1, l, rng, i =>
    shuffleAux fuel (swapEntries l i (rng i % (l.length - i) + i)) rng (i + 1)

/-- `Algo::shuffle(buf, prng)`. -/
def shuffle {α : Type} (l : List α) (rng : Nat → Nat) : List α :=
  shuffleAux l.length l rng 0

/-- The block shuffle in `SfenReader::file_read_worker`: a freshly read
block of samples is shuffled unless `no_shuffle` is set. -/
def sfenReaderBlockShuffle {α : Type} (noShuffle : Bool) (sfens : List α)
    (rng : Nat → Nat) : List α :=
  if noShuffle then sfens else shuffle sfens rng

lemma shuffleAux_perm {α : Type} :
    ∀ (fuel : Nat) (l : List α) (rng : Nat → Nat) (i : Nat),
      (shuffleAux fuel l rng i).Perm l := by
  intro fuel
  induction fuel with
  | zero => intro l rng i; exact List.Perm.refl l
  | succ n ih =>
    intro l rng i
    exact (ih _ rng (i + 1)).trans (swapEntries_perm l i _)

/-- C10: for every input vector and every random stream, `Algo::shuffle`
permutes the vector — the multiset of elements is unchanged, no element
lost or duplicated — and consequently the `SfenReader` background block
shuffle never drops or duplicates samples within a block. -/
theorem algo_shuffle_perm {α : Type} (l : List α) (rng : Nat → Nat)
    (noShuffle : Bool) :
    (shuffle l rng).Perm l
    ∧ (sfenReaderBlockShuffle noShuffle l rng).Perm l := by
  refine ⟨shuffleAux_perm l.length l rng 0, ?_⟩
  unfold sfenReaderBlockShuffle
  by_cases h : noShuffle = true
  · simp [h]
  · simp only [h, if_false]
    exact shuffleAux_perm l.length l rng 0

end VariantNNUE
